import Mathlib

/-!
Verification development for the `checkmate` tensor-rematerialization
scheduling core.  The repository snapshot only ships the README and a
tutorial notebook; the scheduling core itself (DFG model, memory/cost
accountant, optimization formulator, solver adapter, schedule builder and
schedule validator) is described by the design specification, so every
definition below is modelled from the spec (each such definition carries a
"Modelled from the spec" doc comment naming the missing component).

Policy fixed for the open question of the spec's section 9 (transient
memory during an operator's production step): the inputs consumed by the
operators running at a stage remain resident during that stage and are
freed at the end of the stage.  Accordingly the per-stage memory charge
counts a tensor if it is stored after the stage, produced during the
stage, or held from the previous stage while being consumed at the stage.
-/

namespace Checkmate

/-- Modelled from the spec: error variants of the external solver adapter
(section 4.4), whose concrete implementation is missing from the sources. -/
inductive SolveError where
  | infeasible
  | timeout
  | unavailable
deriving DecidableEq, Repr

/-- Modelled from the spec: the error taxonomy of section 7 for the
scheduling pipeline, whose implementation is missing from the sources. -/
inductive CheckmateError where
  | malformedGraph
  | infeasibleBudget
  | solverFailed
  | scheduleInconsistency
deriving DecidableEq, Repr

/-- Modelled from the spec: failure reasons of the schedule validator
(section 4.6); the stage payload is omitted since only success/failure and
the reason are relevant here. -/
inductive ValidationError where
  | missingInput
  | evictNonResident
  | budgetExceeded
deriving DecidableEq, Repr

/-- Modelled from the spec: an operator node of the DFG (section 3) — a
name tag, ordered input tensor ids, output tensor ids and a compute cost. -/
structure Operator where
  name : String
  inputs : List Nat
  outputs : List Nat
  cost : Nat
deriving DecidableEq, Repr

/-- Modelled from the spec: a tensor of the DFG (section 3) — byte size and
the graph-input flag (graph inputs are always available and never evicted). -/
structure Tensor where
  size : Nat
  isInput : Bool
deriving DecidableEq, Repr

/-- Modelled from the spec: the dataflow graph (section 3): operators in
topological order plus the tensor table, keyed by stable integer ids. -/
structure DFG where
  ops : List Operator
  tensors : List Tensor
deriving DecidableEq, Repr

def DFG.numOps (g : DFG) : Nat := g.ops.length

def DFG.numTensors (g : DFG) : Nat := g.tensors.length

/-- Number of schedule stages: one per operator of the canonical pass
(section 3, "Stage"). -/
def DFG.numStages (g : DFG) : Nat := g.ops.length

def DFG.op (g : DFG) (i : Nat) : Operator := g.ops.getD i ⟨"", [], [], 0⟩

def DFG.tensor (g : DFG) (t : Nat) : Tensor := g.tensors.getD t ⟨0, false⟩

def DFG.size (g : DFG) (t : Nat) : Nat := (g.tensor t).size

def DFG.isInput (g : DFG) (t : Nat) : Bool := (g.tensor t).isInput

def DFG.produces (g : DFG) (i t : Nat) : Bool := (g.op i).outputs.contains t

def DFG.consumes (g : DFG) (i t : Nat) : Bool := (g.op i).inputs.contains t

/-- Number of operators producing tensor `t`. -/
def DFG.producerCount (g : DFG) (t : Nat) : Nat :=
  ((List.range g.numOps).filter (fun i => g.produces i t)).length

/-- A terminal tensor has no consumer; it feeds the terminal boundary of
the pass (section 3, completeness invariant). -/
def DFG.isTerminal (g : DFG) (t : Nat) : Bool :=
  (List.range g.numOps).all (fun i => !g.consumes i t)

/-- Modelled from the spec: the boolean structural-validity check performed
by `build` (sections 3, 4.1, 6): referenced tensor ids are defined, every
operator has at least one output, every operator input is a graph input or
is produced by a strictly earlier operator (no forward references, no
cycles), and every tensor has exactly one producer unless it is a graph
input, which has none. -/
def DFG.wellFormedB (g : DFG) : Bool :=
  ((List.range g.numOps).all fun i =>
    (g.op i).inputs.all (fun t => decide (t < g.numTensors)) &&
    (g.op i).outputs.all (fun t => decide (t < g.numTensors)) &&
    !(g.op i).outputs.isEmpty &&
    (g.op i).inputs.all
      (fun t => g.isInput t || (List.range i).any (fun j => g.produces j t)))
  &&
  ((List.range g.numTensors).all fun t =>
    g.producerCount t == (if g.isInput t then 0 else 1))

/-- Specification-side statement of the structural invariants of section 3
that `build` must enforce. -/
def StructurallyValid (g : DFG) : Prop :=
  (∀ i < g.numOps,
      (∀ t ∈ (g.op i).inputs, t < g.numTensors) ∧
      (∀ t ∈ (g.op i).outputs, t < g.numTensors) ∧
      (g.op i).outputs ≠ [] ∧
      (∀ t ∈ (g.op i).inputs,
        g.isInput t = true ∨ ∃ j < i, g.produces j t = true)) ∧
  (∀ t < g.numTensors,
      g.producerCount t = if g.isInput t then 0 else 1)

/-- Modelled from the spec: `build(operators, tensors, dependencies) -> DFG`
(section 4.1); the dependency structure is carried by the per-operator
input/output tensor-id lists, and a structurally invalid description fails
with `MalformedGraphError`. -/
def build (os : List Operator) (ts : List Tensor) : Except CheckmateError DFG :=
  let g : DFG := ⟨os, ts⟩
  if g.wellFormedB then Except.ok g else Except.error CheckmateError.malformedGraph

theorem isEmpty_false_iff {α : Type} (l : List α) : l.isEmpty = false ↔ l ≠ [] := by
  cases l <;> simp

theorem wellFormedB_iff (g : DFG) : g.wellFormedB = true ↔ StructurallyValid g := by
  unfold DFG.wellFormedB StructurallyValid
  simp only [Bool.and_eq_true, List.all_eq_true, List.mem_range, decide_eq_true_eq,
    Bool.not_eq_true', isEmpty_false_iff, Bool.or_eq_true, List.any_eq_true,
    beq_iff_eq]
  constructor
  · rintro ⟨h1, h2⟩
    refine ⟨fun i hi => ?_, h2⟩
    obtain ⟨⟨⟨ha, hb⟩, hc⟩, hd⟩ := h1 i hi
    exact ⟨ha, hb, hc, hd⟩
  · rintro ⟨h1, h2⟩
    refine ⟨fun i hi => ?_, h2⟩
    obtain ⟨ha, hb, hc, hd⟩ := h1 i hi
    exact ⟨⟨⟨ha, hb⟩, hc⟩, hd⟩

/-- Modelled from the spec: the pair of boolean decision matrices of
section 3 — `R` indexed (operator, stage) is true when the operator is
(re-)executed at that stage, `S` indexed (tensor, stage) is true when the
tensor is resident immediately after that stage. -/
structure Assignment where
  R : Nat → Nat → Bool
  S : Nat → Nat → Bool

/-- Tensor `t` is produced by one of the operators of index below `N` that
run at stage `k`. -/
def producedBelow (g : DFG) (a : Assignment) (N t k : Nat) : Bool :=
  (List.range N).any fun i => a.R i k && g.produces i t

/-- Tensor `t` is produced by some operator running at stage `k`. -/
def producedAt (g : DFG) (a : Assignment) (t k : Nat) : Bool :=
  producedBelow g a g.numOps t k

/-- Tensor `t` is consumed by some operator running at stage `k`. -/
def consumedAt (g : DFG) (a : Assignment) (t k : Nat) : Bool :=
  (List.range g.numOps).any fun i => a.R i k && g.consumes i t

/-- Residency immediately before stage `k`: the previous stage's `S`
column, with graph inputs preloaded before stage 0 (section 3: graph
inputs are always available). -/
def storedBefore (g : DFG) (a : Assignment) (t k : Nat) : Bool :=
  if k = 0 then g.isInput t else a.S t (k - 1)

/-- Tensor `t` is charged to stage `k`'s memory: stored after the stage,
produced transiently during the stage, or held from the previous stage
while being consumed at the stage (the fixed policy for section 9's open
question on transient memory). -/
def inMemAt (g : DFG) (a : Assignment) (t k : Nat) : Bool :=
  a.S t k || producedAt g a t k || (storedBefore g a t k && consumedAt g a t k)

/-- Modelled from the spec: the accountant's per-stage resident footprint
(section 4.2), the quantity bounded by the budget invariant of section 3. -/
def memAt (g : DFG) (a : Assignment) (k : Nat) : Nat :=
  ∑ t ∈ Finset.range g.numTensors, if inMemAt g a t k then g.size t else 0

/-- Compute cost charged to stage `k`: the cost of every operator that runs
there. -/
def stageCost (g : DFG) (a : Assignment) (k : Nat) : Nat :=
  ∑ i ∈ Finset.range g.numOps, if a.R i k then (g.op i).cost else 0

/-- Number of stages at which operator `i` is executed. -/
def execCount (g : DFG) (a : Assignment) (i : Nat) : Nat :=
  ((Finset.range g.numStages).filter fun k => a.R i k = true).card

/-- Modelled from the spec: the accountant's peak-memory computation
(section 4.2) — the maximum of the per-stage footprints, accumulated over
the stage timeline. -/
def peakMem (g : DFG) (a : Assignment) : Nat :=
  (List.range g.numStages).foldl (fun acc k => max acc (memAt g a k)) 0

/-- Modelled from the spec: the accountant's total-cost computation
(section 4.2) — operator cost summed over every (operator, stage) pair
where `R` is true, accumulated over the stage timeline. -/
def runCost (g : DFG) (a : Assignment) : Nat :=
  (List.range g.numStages).foldl (fun acc k => acc + stageCost g a k) 0

structure EvalResult where
  peakMemory : Nat
  totalCost : Nat
deriving DecidableEq, Repr

/-- Modelled from the spec: `evaluate(DFG, R, S) -> {peak_memory,
total_cost}` (section 4.2), the pure memory/cost accountant used both for
constraint generation and post-hoc validation. -/
def evaluate (g : DFG) (a : Assignment) : EvalResult :=
  ⟨peakMem g a, runCost g a⟩

/-- Sum of the costs of every operator, executed once: the cost of the
original, rematerialization-free schedule. -/
def originalCost (g : DFG) : Nat :=
  ∑ i ∈ Finset.range g.numOps, (g.op i).cost

/-- Sum of the sizes of all tensors of the graph. -/
def sumSizes (g : DFG) : Nat :=
  ∑ t ∈ Finset.range g.numTensors, g.size t

/-- Size of the largest single tensor of the graph. -/
def maxTensorSize (g : DFG) : Nat :=
  (Finset.range g.numTensors).sup fun t => g.size t

/-- Modelled from the spec: the availability invariant of section 3 for
operator `i` at stage `k` — every input tensor is resident at the
immediately preceding stage (graph inputs are preloaded), or is produced
at the same stage by an operator other than `i` itself (same-stage
self-availability is disallowed). -/
def availB (g : DFG) (a : Assignment) (i k : Nat) : Bool :=
  (g.op i).inputs.all fun t =>
    storedBefore g a t k ||
    (List.range g.numOps).any fun j => !(j == i) && a.R j k && g.produces j t

/-- Modelled from the spec: the four invariants of section 3 that any
valid rematerialization plan (R, S) must satisfy under budget `B`:
availability; single definition per stage (a tensor is resident only right
after being produced or by staying resident, and graph inputs are never
evicted); the per-stage budget bound; completeness (every non-input tensor
is produced at least once — the formulator constraint of section 4.3 — and
every terminal tensor is available at the final stage). -/
def Valid (g : DFG) (B : Nat) (a : Assignment) : Prop :=
  (∀ i < g.numOps, ∀ k < g.numStages, a.R i k = true → availB g a i k = true) ∧
  (∀ t < g.numTensors, g.isInput t = false → ∀ k < g.numStages, a.S t k = true →
      producedAt g a t k = true ∨ (0 < k ∧ a.S t (k - 1) = true)) ∧
  (∀ t < g.numTensors, g.isInput t = true → ∀ k < g.numStages, a.S t k = true) ∧
  (∀ k < g.numStages, memAt g a k ≤ B) ∧
  (∀ t < g.numTensors, g.isInput t = false →
      ∃ k < g.numStages, producedAt g a t k = true) ∧
  (0 < g.numStages → ∀ t < g.numTensors, g.isTerminal t = true →
      a.S t (g.numStages - 1) = true ∨ producedAt g a t (g.numStages - 1) = true)

instance (g : DFG) (B : Nat) (a : Assignment) : Decidable (Valid g B a) := by
  unfold Valid
  refine @instDecidableAnd _ _ ?_
    (@instDecidableAnd _ _ ?_
      (@instDecidableAnd _ _ ?_
        (@instDecidableAnd _ _ ?_ (@instDecidableAnd _ _ ?_ ?_)))) <;>
    exact inferInstance

/-- A (DFG, budget) pair is feasible when some valid plan exists. -/
def Feasible (g : DFG) (B : Nat) : Prop :=
  ∃ a, Valid g B a

/-- Modelled from the spec: the external solver capability of section 4.4,
taken as a swappable function from the (DFG, budget) formulation to a
decoded decision-matrix assignment or a solve error. -/
def Solver : Type :=
  DFG → Nat → Except SolveError Assignment

/-- Contract of an exact-mode solver run on the instance `(g, B)`
(sections 1, 4.3, 4.4): a returned assignment is feasible and of minimal
total cost, and infeasibility is reported exactly when no valid plan
exists. -/
def ExactSolverAt (solver : Solver) (g : DFG) (B : Nat) : Prop :=
  match solver g B with
  | Except.ok a => Valid g B a ∧
      ∀ a', Valid g B a' → (evaluate g a).totalCost ≤ (evaluate g a').totalCost
  | Except.error e => e = SolveError.infeasible ∧ ∀ a, ¬ Valid g B a

/-- Modelled from the spec: a schedule instruction (section 4.5) — execute
an operator (producing its output tensors) or evict a tensor. -/
inductive Instr where
  | exec (i : Nat)
  | evict (t : Nat)
deriving DecidableEq, Repr

/-- Tensor evicted at the start of stage `k`: held before the stage, not
stored after it, and neither consumed nor produced during it. -/
def startEvictB (g : DFG) (a : Assignment) (t k : Nat) : Bool :=
  storedBefore g a t k && !a.S t k && !consumedAt g a t k && !producedAt g a t k

/-- Tensor evicted at the end of stage `k`: not stored after the stage but
present during it, either produced transiently or held for consumption. -/
def endEvictB (g : DFG) (a : Assignment) (t k : Nat) : Bool :=
  !a.S t k && (producedAt g a t k || (storedBefore g a t k && consumedAt g a t k))

/-- Modelled from the spec: the builder's instruction block for stage `k`
(section 4.5): evictions that free memory unused at the stage first, then
the stage's operator executions in topological order, then evictions of
the tensors that were only held transiently during the stage. -/
def stageInstrs (g : DFG) (a : Assignment) (k : Nat) : List Instr :=
  (((List.range g.numTensors).filter fun t => startEvictB g a t k).map Instr.evict) ++
  ((((List.range g.numOps).filter fun i => a.R i k).map Instr.exec) ++
   (((List.range g.numTensors).filter fun t => endEvictB g a t k).map Instr.evict))

/-- Instruction sequence derived from a decision-matrix pair, ordered by
stage index. -/
def buildInstrs (g : DFG) (a : Assignment) : List Instr :=
  (List.range g.numStages).flatMap (stageInstrs g a)

/-- Modelled from the spec: `build(DFG, R, S) -> OrderedSchedule`
(section 4.5) — the builder dry-runs the invariants and fails fast with
`ScheduleInconsistencyError` on an invalid decision-matrix pair. -/
def buildSchedule (g : DFG) (B : Nat) (a : Assignment) : Except CheckmateError (List Instr) :=
  if Valid g B a then Except.ok (buildInstrs g a)
  else Except.error CheckmateError.scheduleInconsistency

/-- Number of operators that are executed at two or more stages. -/
def recompOps (g : DFG) (a : Assignment) : Nat :=
  ((Finset.range g.numOps).filter fun i => 2 ≤ execCount g a i).card

/-- Modelled from the spec: the ordered schedule handed to the execution
backend together with its summary statistics (section 6). -/
structure OrderedSchedule where
  instrs : List Instr
  peakMemory : Nat
  totalCost : Nat
  recomputedOps : Nat
deriving DecidableEq, Repr

/-- Modelled from the spec: the end-to-end scheduling pipeline of
section 2 — formulate, solve via the external capability, decode, build
the ordered schedule, and surface errors per section 7. -/
def optimize (solver : Solver) (g : DFG) (B : Nat) :
    Except CheckmateError OrderedSchedule :=
  match solver g B with
  | Except.ok a =>
    match buildSchedule g B a with
    | Except.ok is =>
        Except.ok ⟨is, (evaluate g a).peakMemory, (evaluate g a).totalCost, recompOps g a⟩
    | Except.error e => Except.error e
  | Except.error SolveError.infeasible => Except.error CheckmateError.infeasibleBudget
  | Except.error _ => Except.error CheckmateError.solverFailed

/-- Memory footprint of a resident-set characteristic function. -/
def memOf (g : DFG) (r : Nat → Bool) : Nat :=
  ∑ t ∈ Finset.range g.numTensors, if r t then g.size t else 0

/-- Modelled from the spec: one step of the validator's re-simulation
(section 4.6): an execution requires every consumed tensor to be most
recently produced and not yet evicted, adds the produced tensors and
checks the running footprint against the budget; an eviction requires the
tensor to be resident. -/
def applyInstr (g : DFG) (B : Nat) (r : Nat → Bool) :
    Instr → Except ValidationError (Nat → Bool)
  | Instr.exec i =>
    if (g.op i).inputs.all r then
      let r' : Nat → Bool := fun t => r t || (g.op i).outputs.contains t
      if memOf g r' ≤ B then Except.ok r' else Except.error ValidationError.budgetExceeded
    else Except.error ValidationError.missingInput
  | Instr.evict t =>
    if r t then Except.ok (fun x => if x = t then false else r x)
    else Except.error ValidationError.evictNonResident

/-- Run the validator's simulation over an instruction list from resident
set `r`. -/
def validateGo (g : DFG) (B : Nat) (r : Nat → Bool) :
    List Instr → Except ValidationError (Nat → Bool)
  | [] => Except.ok r
  | ins :: rest =>
    match applyInstr g B r ins with
    | Except.ok r' => validateGo g B r' rest
    | Except.error e => Except.error e

/-- Modelled from the spec: `validate(DFG, OrderedSchedule, budget)`
(section 4.6) — re-simulates the schedule from scratch using only the
instruction sequence, starting from the always-available graph inputs. -/
def validate (g : DFG) (is : List Instr) (B : Nat) : Except ValidationError Unit :=
  (validateGo g B (fun t => g.isInput t) is).map fun _ => ()

/-! Basic lemmas about the DFG accessors and the accountant. -/

theorem DFG.isInput_lt {g : DFG} {t : Nat} (h : g.isInput t = true) : t < g.numTensors := by
  by_contra hlt
  push_neg at hlt
  have hlt' : g.tensors.length ≤ t := hlt
  unfold DFG.isInput DFG.tensor at h
  rw [List.getD_eq_default _ _ hlt'] at h
  simp at h

theorem DFG.produces_lt {g : DFG} {j t : Nat} (h : g.produces j t = true) : j < g.numOps := by
  by_contra hj
  push_neg at hj
  have hj' : g.ops.length ≤ j := hj
  unfold DFG.produces DFG.op at h
  rw [List.getD_eq_default _ _ hj'] at h
  simp [List.contains] at h

theorem DFG.consumes_lt {g : DFG} {j t : Nat} (h : g.consumes j t = true) : j < g.numOps := by
  by_contra hj
  push_neg at hj
  have hj' : g.ops.length ≤ j := hj
  unfold DFG.consumes DFG.op at h
  rw [List.getD_eq_default _ _ hj'] at h
  simp [List.contains] at h

theorem producedBelow_iff {g : DFG} {a : Assignment} {N t k : Nat} :
    producedBelow g a N t k = true ↔
      ∃ i, i < N ∧ a.R i k = true ∧ g.produces i t = true := by
  unfold producedBelow
  simp [List.any_eq_true, List.mem_range, Bool.and_eq_true, and_assoc]

theorem producedAt_iff {g : DFG} {a : Assignment} {t k : Nat} :
    producedAt g a t k = true ↔
      ∃ i, a.R i k = true ∧ g.produces i t = true := by
  unfold producedAt
  rw [producedBelow_iff]
  constructor
  · rintro ⟨i, _, h⟩
    exact ⟨i, h⟩
  · rintro ⟨i, h1, h2⟩
    exact ⟨i, DFG.produces_lt h2, h1, h2⟩

theorem consumedAt_iff {g : DFG} {a : Assignment} {t k : Nat} :
    consumedAt g a t k = true ↔
      ∃ i, a.R i k = true ∧ g.consumes i t = true := by
  unfold consumedAt
  simp only [List.any_eq_true, List.mem_range, Bool.and_eq_true]
  constructor
  · rintro ⟨i, _, h⟩
    exact ⟨i, h⟩
  · rintro ⟨i, h1, h2⟩
    exact ⟨i, DFG.consumes_lt h2, h1, h2⟩

theorem producedBelow_mono {g : DFG} {a : Assignment} {N t k : Nat}
    (h : producedBelow g a N t k = true) : producedAt g a t k = true := by
  rw [producedBelow_iff] at h
  obtain ⟨i, _, h1, h2⟩ := h
  exact producedAt_iff.mpr ⟨i, h1, h2⟩

theorem produces_mem_outputs {g : DFG} {i t : Nat} :
    g.produces i t = true ↔ t ∈ (g.op i).outputs := by
  unfold DFG.produces
  simp [List.contains]

theorem consumes_mem_inputs {g : DFG} {i t : Nat} :
    g.consumes i t = true ↔ t ∈ (g.op i).inputs := by
  unfold DFG.consumes
  simp [List.contains]

/-- Well-formedness: a produced tensor id is defined. -/
theorem produces_lt_numTensors {g : DFG} (hg : StructurallyValid g) {j t : Nat}
    (h : g.produces j t = true) : t < g.numTensors :=
  (hg.1 j (DFG.produces_lt h)).2.1 t (produces_mem_outputs.mp h)

/-- Well-formedness: a consumed tensor id is defined. -/
theorem consumes_lt_numTensors {g : DFG} (hg : StructurallyValid g) {j t : Nat}
    (h : g.consumes j t = true) : t < g.numTensors :=
  (hg.1 j (DFG.consumes_lt h)).1 t (consumes_mem_inputs.mp h)

/-- Well-formedness: produced tensors are not graph inputs. -/
theorem produces_isInput_false {g : DFG} (hg : StructurallyValid g) {j t : Nat}
    (h : g.produces j t = true) : g.isInput t = false := by
  by_contra hin
  simp only [Bool.not_eq_false] at hin
  have hcount := hg.2 t (produces_lt_numTensors hg h)
  rw [if_pos hin] at hcount
  have hmem : j ∈ (List.range g.numOps).filter (fun i => g.produces i t) := by
    rw [List.mem_filter, List.mem_range]
    exact ⟨DFG.produces_lt h, h⟩
  unfold DFG.producerCount at hcount
  rw [List.length_eq_zero] at hcount
  rw [hcount] at hmem
  exact List.not_mem_nil j hmem

/-- Well-formedness: the producer of a tensor is unique. -/
theorem produces_unique {g : DFG} (hg : StructurallyValid g) {j j' t : Nat}
    (h : g.produces j t = true) (h' : g.produces j' t = true) : j = j' := by
  have hcount := hg.2 t (produces_lt_numTensors hg h)
  rw [if_neg (by simp [produces_isInput_false hg h])] at hcount
  unfold DFG.producerCount at hcount
  obtain ⟨x, hx⟩ := List.length_eq_one.mp hcount
  have hmem : j ∈ (List.range g.numOps).filter (fun i => g.produces i t) := by
    rw [List.mem_filter, List.mem_range]
    exact ⟨DFG.produces_lt h, h⟩
  have hmem' : j' ∈ (List.range g.numOps).filter (fun i => g.produces i t) := by
    rw [List.mem_filter, List.mem_range]
    exact ⟨DFG.produces_lt h', h'⟩
  rw [hx, List.mem_singleton] at hmem hmem'
  rw [hmem, hmem']

/-- Well-formedness: every defined non-input tensor has a producer. -/
theorem exists_producer {g : DFG} (hg : StructurallyValid g) {t : Nat}
    (ht : t < g.numTensors) (hni : g.isInput t = false) :
    ∃ j, j < g.numOps ∧ g.produces j t = true := by
  have hcount := hg.2 t ht
  rw [if_neg (by simp [hni])] at hcount
  unfold DFG.producerCount at hcount
  obtain ⟨x, hx⟩ := List.length_eq_one.mp hcount
  have hmem : x ∈ (List.range g.numOps).filter (fun i => g.produces i t) := by
    rw [hx]
    exact List.mem_singleton_self x
  rw [List.mem_filter, List.mem_range] at hmem
  exact ⟨x, hmem⟩

/-- A single charged tensor's size is bounded by the stage footprint. -/
theorem size_le_memAt {g : DFG} {a : Assignment} {t k : Nat} (ht : t < g.numTensors)
    (h : inMemAt g a t k = true) : g.size t ≤ memAt g a k := by
  unfold memAt
  have hstep : ∀ u ∈ Finset.range g.numTensors,
      (0 : Nat) ≤ (if inMemAt g a u k then g.size u else 0) :=
    fun u _ => Nat.zero_le _
  have := Finset.single_le_sum hstep (Finset.mem_range.mpr ht)
  simpa [h] using this

theorem memAt_le_sumSizes (g : DFG) (a : Assignment) (k : Nat) :
    memAt g a k ≤ sumSizes g := by
  unfold memAt sumSizes
  refine Finset.sum_le_sum fun t _ => ?_
  split <;> simp

theorem foldl_max_le {f : Nat → Nat} {B : Nat} :
    ∀ (l : List Nat) (acc : Nat), acc ≤ B → (∀ x ∈ l, f x ≤ B) →
      l.foldl (fun a x => max a (f x)) acc ≤ B := by
  intro l
  induction l with
  | nil => exact fun acc h _ => h
  | cons x xs ih =>
    intro acc h hall
    exact ih _ (max_le h (hall x (by simp))) fun y hy => hall y (by simp [hy])

/-- The accountant's peak is within budget whenever every stage is. -/
theorem peakMem_le {g : DFG} {a : Assignment} {B : Nat}
    (h : ∀ k < g.numStages, memAt g a k ≤ B) : peakMem g a ≤ B := by
  unfold peakMem
  exact foldl_max_le _ 0 (Nat.zero_le B) fun x hx => h x (List.mem_range.mp hx)

theorem foldl_add_eq_sum (f : Nat → Nat) :
    ∀ (n : Nat), (List.range n).foldl (fun acc k => acc + f k) 0 =
      ∑ k ∈ Finset.range n, f k := by
  intro n
  induction n with
  | zero => simp
  | succ n ih =>
    rw [List.range_succ, List.foldl_append, ih, Finset.sum_range_succ]
    rfl

theorem runCost_eq_sum (g : DFG) (a : Assignment) :
    runCost g a = ∑ k ∈ Finset.range g.numStages, stageCost g a k :=
  foldl_add_eq_sum _ _

/-- Accountant characterization: total cost charges every operator its cost
once per execution. -/
theorem runCost_eq_execCount (g : DFG) (a : Assignment) :
    runCost g a = ∑ i ∈ Finset.range g.numOps, (g.op i).cost * execCount g a i := by
  rw [runCost_eq_sum]
  unfold stageCost
  rw [Finset.sum_comm]
  refine Finset.sum_congr rfl fun i _ => ?_
  unfold execCount
  rw [← Finset.sum_filter, Finset.sum_const, smul_eq_mul, Nat.mul_comm]

/-- Every operator of a well-formed graph is executed at least once by any
valid plan: its (non-input) output must be produced at least once, and it
is the unique producer. -/
theorem one_le_execCount {g : DFG} {B : Nat} {a : Assignment}
    (hg : StructurallyValid g) (hv : Valid g B a) {i : Nat} (hi : i < g.numOps) :
    1 ≤ execCount g a i := by
  obtain ⟨-, -, -, -, hcomp, -⟩ := hv
  obtain ⟨-, -, hne, -⟩ := hg.1 i hi
  obtain ⟨t, hmem⟩ := List.exists_mem_of_ne_nil _ hne
  have hprod : g.produces i t = true := produces_mem_outputs.mpr hmem
  have ht : t < g.numTensors := produces_lt_numTensors hg hprod
  have hni : g.isInput t = false := produces_isInput_false hg hprod
  obtain ⟨k, hk, hpk⟩ := hcomp t ht hni
  rw [producedAt_iff] at hpk
  obtain ⟨j, hR, hpj⟩ := hpk
  have hji : j = i := produces_unique hg hpj hprod
  unfold execCount
  exact Finset.card_pos.mpr
    ⟨k, Finset.mem_filter.mpr ⟨Finset.mem_range.mpr hk, by rw [← hji]; exact hR⟩⟩

/-- Any valid plan costs at least the original, rematerialization-free
schedule. -/
theorem originalCost_le_runCost {g : DFG} {B : Nat} {a : Assignment}
    (hg : StructurallyValid g) (hv : Valid g B a) :
    originalCost g ≤ runCost g a := by
  rw [runCost_eq_execCount]
  unfold originalCost
  refine Finset.sum_le_sum fun i hi => ?_
  calc (g.op i).cost = (g.op i).cost * 1 := by ring
  _ ≤ (g.op i).cost * execCount g a i :=
      Nat.mul_le_mul_left _ (one_le_execCount hg hv (Finset.mem_range.mp hi))

/-- A constant solver returning a valid minimal-cost plan satisfies the
exact-solver contract. -/
theorem exactSolverAt_const {g : DFG} {B : Nat} {a0 : Assignment}
    (hg : StructurallyValid g) (hv : Valid g B a0)
    (hc : runCost g a0 = originalCost g) :
    ExactSolverAt (fun _ _ => Except.ok a0) g B := by
  unfold ExactSolverAt
  exact ⟨hv, fun a' hv' => by
    show runCost g a0 ≤ runCost g a'
    rw [hc]
    exact originalCost_le_runCost hg hv'⟩

/-! The checkpoint-everything plan: operator `k` runs exactly at stage `k`
and every tensor stays resident from its production onward.  It is valid
whenever the budget covers the sum of all tensor sizes, and its cost is the
original, rematerialization-free cost. -/

def keepAll (g : DFG) : Assignment :=
  ⟨fun i k => decide (i = k),
   fun t k => g.isInput t || (List.range (k + 1)).any fun j => g.produces j t⟩

theorem keepAll_S_iff {g : DFG} {t k : Nat} :
    (keepAll g).S t k = true ↔
      g.isInput t = true ∨ ∃ j, j ≤ k ∧ g.produces j t = true := by
  unfold keepAll
  simp [List.any_eq_true, List.mem_range, Nat.lt_succ_iff]

theorem keepAll_producedAt_iff {g : DFG} {t k : Nat} :
    producedAt g (keepAll g) t k = true ↔ g.produces k t = true := by
  rw [producedAt_iff]
  constructor
  · rintro ⟨i, hR, hp⟩
    have : i = k := by simpa [keepAll] using hR
    rwa [this] at hp
  · intro h
    exact ⟨k, by simp [keepAll], h⟩

theorem keepAll_valid {g : DFG} {B : Nat} (hg : StructurallyValid g)
    (hB : sumSizes g ≤ B) : Valid g B (keepAll g) := by
  refine ⟨?_, ?_, ?_, ?_, ?_, ?_⟩
  · -- availability
    intro i hi k hk hR
    have hik : i = k := by simpa [keepAll] using hR
    unfold availB
    rw [List.all_eq_true]
    intro t ht
    refine Bool.or_eq_true_iff.mpr (Or.inl ?_)
    rcases (hg.1 i hi).2.2.2 t ht with hin | ⟨j, hj, hpj⟩
    · unfold storedBefore
      cases k with
      | zero => simpa using hin
      | succ k' =>
        simp only [Nat.succ_ne_zero, if_false, Nat.succ_sub_one]
        exact keepAll_S_iff.mpr (Or.inl hin)
    · unfold storedBefore
      rw [if_neg (by omega)]
      exact keepAll_S_iff.mpr (Or.inr ⟨j, by omega, hpj⟩)
  · -- single definition
    intro t ht hni k hk hS
    rcases keepAll_S_iff.mp hS with hin | ⟨j, hj, hpj⟩
    · rw [hin] at hni; cases hni
    · rcases Nat.lt_or_ge j k with hlt | hge
      · refine Or.inr ⟨by omega, ?_⟩
        exact keepAll_S_iff.mpr (Or.inr ⟨j, by omega, hpj⟩)
      · have hjk : j = k := by omega
        subst hjk
        exact Or.inl (keepAll_producedAt_iff.mpr hpj)
  · -- inputs stay resident
    intro t ht hin k hk
    exact keepAll_S_iff.mpr (Or.inl hin)
  · -- budget
    intro k hk
    exact le_trans (memAt_le_sumSizes g (keepAll g) k) hB
  · -- completeness
    intro t ht hni
    obtain ⟨j, hj, hpj⟩ := exists_producer hg ht hni
    exact ⟨j, hj, keepAll_producedAt_iff.mpr hpj⟩
  · -- terminal availability
    intro hT t ht hterm
    by_cases hin : g.isInput t = true
    · exact Or.inl (keepAll_S_iff.mpr (Or.inl hin))
    · simp only [Bool.not_eq_true] at hin
      obtain ⟨j, hj, hpj⟩ := exists_producer hg ht hin
      have hTn : g.numStages = g.numOps := rfl
      exact Or.inl (keepAll_S_iff.mpr (Or.inr ⟨j, by omega, hpj⟩))

theorem keepAll_execCount {g : DFG} {i : Nat} (hi : i < g.numOps) :
    execCount g (keepAll g) i = 1 := by
  unfold execCount
  refine Finset.card_eq_one.mpr ⟨i, ?_⟩
  ext k
  simp only [Finset.mem_filter, Finset.mem_range, Finset.mem_singleton, keepAll,
    decide_eq_true_eq]
  constructor
  · rintro ⟨-, h⟩
    omega
  · rintro rfl
    exact ⟨hi, rfl⟩

theorem keepAll_cost (g : DFG) : runCost g (keepAll g) = originalCost g := by
  rw [runCost_eq_execCount]
  unfold originalCost
  refine Finset.sum_congr rfl fun i hi => ?_
  rw [keepAll_execCount (Finset.mem_range.mp hi), Nat.mul_one]

/-! Simulation lemmas for the schedule validator: running the validator
over the builder's instruction stream tracks the decision matrices stage
by stage. -/

/-- Resident set immediately before stage `k`, restricted to defined
tensor ids. -/
def resBefore (g : DFG) (a : Assignment) (k : Nat) : Nat → Bool :=
  fun t => decide (t < g.numTensors) && storedBefore g a t k

/-- Resident set during stage `k`, after the start evictions and the
executions of the operators of index below `N`. -/
def resMid (g : DFG) (a : Assignment) (k N : Nat) : Nat → Bool :=
  fun t =>
    (decide (t < g.numTensors) && storedBefore g a t k && !startEvictB g a t k) ||
      producedBelow g a N t k

theorem validateGo_nil (g : DFG) (B : Nat) (r : Nat → Bool) :
    validateGo g B r [] = Except.ok r := rfl

theorem validateGo_cons (g : DFG) (B : Nat) (r : Nat → Bool) (ins : Instr)
    (rest : List Instr) :
    validateGo g B r (ins :: rest) =
      match applyInstr g B r ins with
      | Except.ok r' => validateGo g B r' rest
      | Except.error e => Except.error e := rfl

theorem applyInstr_evict (g : DFG) (B : Nat) (r : Nat → Bool) (t : Nat) :
    applyInstr g B r (Instr.evict t) =
      if r t then Except.ok (fun x => if x = t then false else r x)
      else Except.error ValidationError.evictNonResident := rfl

theorem validateGo_append (g : DFG) (B : Nat) :
    ∀ (l1 l2 : List Instr) (r : Nat → Bool),
      validateGo g B r (l1 ++ l2) =
        match validateGo g B r l1 with
        | Except.ok r' => validateGo g B r' l2
        | Except.error e => Except.error e := by
  intro l1
  induction l1 with
  | nil => intro l2 r; rfl
  | cons ins rest ih =>
    intro l2 r
    rw [List.cons_append, validateGo_cons, validateGo_cons]
    cases applyInstr g B r ins with
    | ok r' => exact ih l2 r'
    | error e => rfl

theorem validateGo_evicts (g : DFG) (B : Nat) :
    ∀ (ts : List Nat) (r : Nat → Bool), ts.Nodup → (∀ t ∈ ts, r t = true) →
      validateGo g B r (ts.map Instr.evict) =
        Except.ok (fun x => if x ∈ ts then false else r x) := by
  intro ts
  induction ts with
  | nil =>
    intro r _ _
    show Except.ok r = _
    rfl
  | cons t rest ih =>
    intro r hnd hres
    have hnt : t ∉ rest := (List.nodup_cons.mp hnd).1
    have hres' : ∀ u ∈ rest, (fun x => if x = t then false else r x) u = true := by
      intro u hu
      have hut : ¬ u = t := fun h => hnt (h ▸ hu)
      simp only [if_neg hut]
      exact hres u (List.mem_cons_of_mem t hu)
    rw [List.map_cons, validateGo_cons, applyInstr_evict,
      if_pos (hres t (List.mem_cons_self t rest))]
    show validateGo g B (fun x => if x = t then false else r x)
      (rest.map Instr.evict) = _
    rw [ih _ (List.nodup_cons.mp hnd).2 hres']
    congr 1
    funext x
    by_cases hx : x = t
    · subst hx
      by_cases hxr : x ∈ rest <;> simp [hxr]
    · by_cases hxr : x ∈ rest <;> simp [hxr, hx]

/-- A resident set whose members are all charged to stage `k` fits within
the stage footprint. -/
theorem memOf_le_memAt {g : DFG} {a : Assignment} {k : Nat} (r : Nat → Bool)
    (h : ∀ t, t < g.numTensors → r t = true → inMemAt g a t k = true) :
    memOf g r ≤ memAt g a k := by
  unfold memOf memAt
  refine Finset.sum_le_sum fun t ht => ?_
  cases hr : r t with
  | false => simp
  | true => rw [h t (Finset.mem_range.mp ht) hr]

theorem producedBelow_succ (g : DFG) (a : Assignment) (N t k : Nat) :
    producedBelow g a (N + 1) t k =
      (producedBelow g a N t k || (a.R N k && g.produces N t)) := by
  unfold producedBelow
  rw [List.range_succ, List.any_append]
  simp

theorem producedAt_def (g : DFG) (a : Assignment) (t k : Nat) :
    producedBelow g a g.numOps t k = producedAt g a t k := rfl

theorem applyInstr_exec (g : DFG) (B : Nat) (r : Nat → Bool) (i : Nat) :
    applyInstr g B r (Instr.exec i) =
      if (g.op i).inputs.all r then
        if memOf g (fun t => r t || (g.op i).outputs.contains t) ≤ B then
          Except.ok (fun t => r t || (g.op i).outputs.contains t)
        else Except.error ValidationError.budgetExceeded
      else Except.error ValidationError.missingInput := rfl

/-- Tensors resident during stage `k` of the builder's simulation are all
charged to stage `k` by the accountant. -/
theorem resMid_inMemAt {g : DFG} {a : Assignment} {k N : Nat}
    (t : Nat) (h : resMid g a k N t = true) : inMemAt g a t k = true := by
  unfold resMid at h
  rw [Bool.or_eq_true] at h
  rcases h with h | h
  · rw [Bool.and_eq_true, Bool.and_eq_true] at h
    obtain ⟨⟨-, hst⟩, hse⟩ := h
    rw [Bool.not_eq_true'] at hse
    unfold startEvictB at hse
    unfold inMemAt
    cases hS : a.S t k with
    | true => simp [hS]
    | false =>
      cases hp : producedAt g a t k with
      | true => simp [hp]
      | false =>
        cases hc : consumedAt g a t k with
        | true => simp [hst, hc]
        | false => rw [hst, hS, hp, hc] at hse; simp at hse
  · unfold inMemAt
    rw [producedBelow_mono h]
    simp

theorem validateGo_execs {g : DFG} {B : Nat} {a : Assignment} {k : Nat}
    (hg : StructurallyValid g) (hv : Valid g B a) (hk : k < g.numStages) :
    ∀ N, N ≤ g.numOps →
      validateGo g B (resMid g a k 0)
        (((List.range N).filter fun i => a.R i k).map Instr.exec) =
        Except.ok (resMid g a k N) := by
  intro N
  induction N with
  | zero => intro _; rfl
  | succ N ih =>
    intro hN
    have hN' : N ≤ g.numOps := Nat.le_of_succ_le hN
    have hNlt : N < g.numOps := hN
    rw [List.range_succ, List.filter_append, List.map_append, validateGo_append, ih hN']
    show validateGo g B (resMid g a k N)
      ((List.filter (fun i => a.R i k) [N]).map Instr.exec) = _
    cases hR : a.R N k with
    | false =>
      have hfilter : List.filter (fun i => a.R i k) [N] = [] := by
        simp [List.filter, hR]
      rw [hfilter, List.map_nil, validateGo_nil]
      congr 1
      funext t
      unfold resMid
      rw [producedBelow_succ, hR]
      simp
    | true =>
      have hfilter : List.filter (fun i => a.R i k) [N] = [N] := by
        simp [List.filter, hR]
      rw [hfilter, List.map_cons, List.map_nil, validateGo_cons, applyInstr_exec]
      have hfun : (fun t => resMid g a k N t || (g.op N).outputs.contains t) =
          resMid g a k (N + 1) := by
        funext t
        unfold resMid
        rw [producedBelow_succ, hR]
        show _ = (_ || (producedBelow g a N t k || (true && g.produces N t)))
        rw [Bool.true_and, Bool.or_assoc]
        rfl
      have hall : (g.op N).inputs.all (resMid g a k N) = true := by
        rw [List.all_eq_true]
        intro t ht
        have htm : t < g.numTensors := (hg.1 N hNlt).1 t ht
        have hav := hv.1 N hNlt k hk hR
        unfold availB at hav
        rw [List.all_eq_true] at hav
        have hav' := hav t ht
        rw [Bool.or_eq_true] at hav'
        rcases hav' with hst | hother
        · have hcons : consumedAt g a t k = true :=
            consumedAt_iff.mpr ⟨N, hR, consumes_mem_inputs.mpr ht⟩
          have hse : startEvictB g a t k = false := by
            unfold startEvictB
            rw [hcons]
            simp
          unfold resMid
          rw [decide_eq_true htm, hst, hse]
          simp
        · rw [List.any_eq_true] at hother
          obtain ⟨j, hjmem, hj⟩ := hother
          rw [Bool.and_eq_true, Bool.and_eq_true] at hj
          obtain ⟨⟨hne, hRj⟩, hpj⟩ := hj
          rcases (hg.1 N hNlt).2.2.2 t ht with hin | ⟨j', hj', hpj'⟩
          · have := produces_isInput_false hg hpj
            rw [hin] at this
            cases this
          · have hjj : j = j' := produces_unique hg hpj hpj'
            have hpb : producedBelow g a N t k = true :=
              producedBelow_iff.mpr ⟨j, by omega, hRj, hpj⟩
            unfold resMid
            rw [hpb]
            simp
      have hbudget : memOf g (resMid g a k (N + 1)) ≤ B :=
        le_trans (memOf_le_memAt _ fun t _ h => resMid_inMemAt t h)
          (hv.2.2.2.1 k hk)
      rw [if_pos hall, hfun, if_pos hbudget]
      rfl

/-- After the start evictions of stage `k`, the resident set is `resMid k 0`. -/
theorem resBefore_start (g : DFG) (a : Assignment) (k : Nat) :
    (fun x => if x ∈ (List.range g.numTensors).filter (fun t => startEvictB g a t k)
        then false else resBefore g a k x) = resMid g a k 0 := by
  funext x
  by_cases hx : x ∈ (List.range g.numTensors).filter (fun t => startEvictB g a t k)
  · rw [if_pos hx]
    rw [List.mem_filter, List.mem_range] at hx
    unfold resMid
    rw [hx.2]
    simp [producedBelow]
  · rw [if_neg hx]
    rw [List.mem_filter, List.mem_range] at hx
    unfold resBefore resMid
    by_cases hxm : x < g.numTensors
    · have hse : startEvictB g a x k = false := by
        cases hq : startEvictB g a x k with
        | false => rfl
        | true => exact absurd ⟨hxm, hq⟩ hx
      rw [decide_eq_true hxm, hse]
      simp [producedBelow]
    · rw [decide_eq_false hxm]
      simp [producedBelow]

/-- After the end evictions of stage `k`, the resident set is the one
stored before stage `k + 1`. -/
theorem resMid_end {g : DFG} {B : Nat} {a : Assignment} {k : Nat}
    (hg : StructurallyValid g) (hv : Valid g B a) (hk : k < g.numStages) :
    (fun x => if x ∈ (List.range g.numTensors).filter (fun t => endEvictB g a t k)
        then false else resMid g a k g.numOps x) = resBefore g a (k + 1) := by
  funext x
  have hres : resBefore g a (k + 1) x = (decide (x < g.numTensors) && a.S x k) := by
    unfold resBefore storedBefore
    simp
  rw [hres]
  by_cases hxm : x < g.numTensors
  · cases hS : a.S x k with
    | true =>
      have hnmem : x ∉ (List.range g.numTensors).filter (fun t => endEvictB g a t k) := by
        rw [List.mem_filter]
        rintro ⟨-, hev⟩
        unfold endEvictB at hev
        rw [hS] at hev
        simp at hev
      rw [if_neg hnmem, decide_eq_true hxm, Bool.true_and]
      unfold resMid
      have hse_of_stored : storedBefore g a x k = true → startEvictB g a x k = false := by
        intro hst
        unfold startEvictB
        rw [hS]
        simp
      by_cases hin : g.isInput x = true
      · have hst : storedBefore g a x k = true := by
          unfold storedBefore
          cases k with
          | zero => simpa using hin
          | succ k' =>
            simp only [Nat.succ_ne_zero, if_false, Nat.succ_sub_one]
            exact hv.2.2.1 x hxm hin k' (by omega)
        rw [decide_eq_true hxm, hst, hse_of_stored hst]
        simp
      · simp only [Bool.not_eq_true] at hin
        rcases hv.2.1 x hxm hin k hk hS with hp | ⟨hk0, hSprev⟩
        · rw [producedAt_def, hp]
          simp
        · have hst : storedBefore g a x k = true := by
            unfold storedBefore
            rw [if_neg (by omega)]
            exact hSprev
          rw [decide_eq_true hxm, hst, hse_of_stored hst]
          simp
    | false =>
      rw [Bool.and_false]
      by_cases hmem : x ∈ (List.range g.numTensors).filter (fun t => endEvictB g a t k)
      · rw [if_pos hmem]
      · rw [if_neg hmem]
        rw [List.mem_filter, List.mem_range] at hmem
        have hev : endEvictB g a x k = false := by
          cases hq : endEvictB g a x k with
          | false => rfl
          | true => exact absurd ⟨hxm, hq⟩ hmem
        unfold endEvictB at hev
        rw [hS] at hev
        simp only [Bool.not_false, Bool.true_and, Bool.or_eq_false_iff] at hev
        obtain ⟨hp, hsc⟩ := hev
        unfold resMid
        rw [producedAt_def, hp, Bool.or_false]
        cases hst : storedBefore g a x k with
        | false => simp
        | true =>
          rw [Bool.and_eq_false_iff] at hsc
          rcases hsc with h | hc
          · rw [hst] at h
            cases h
          · have hse : startEvictB g a x k = true := by
              unfold startEvictB
              rw [hst, hS, hc, hp]
              rfl
            rw [hse]
            simp
  · have hnmem : x ∉ (List.range g.numTensors).filter (fun t => endEvictB g a t k) := by
      rw [List.mem_filter, List.mem_range]
      rintro ⟨h, -⟩
      exact hxm h
    rw [if_neg hnmem, decide_eq_false hxm, Bool.false_and]
    unfold resMid
    rw [decide_eq_false hxm]
    have hp : producedBelow g a g.numOps x k = false := by
      cases hq : producedBelow g a g.numOps x k with
      | false => rfl
      | true =>
        rw [producedAt_def, producedAt_iff] at hq
        obtain ⟨i, -, hpi⟩ := hq
        exact absurd (produces_lt_numTensors hg hpi) hxm
    rw [hp]
    simp

/-- Simulating one builder stage advances the resident set from the
pre-stage snapshot to the next one, with no validation error. -/
theorem validateGo_stage {g : DFG} {B : Nat} {a : Assignment}
    (hg : StructurallyValid g) (hv : Valid g B a) {k : Nat} (hk : k < g.numStages) :
    validateGo g B (resBefore g a k) (stageInstrs g a k) =
      Except.ok (resBefore g a (k + 1)) := by
  unfold stageInstrs
  rw [validateGo_append]
  have hnd1 : ((List.range g.numTensors).filter fun t => startEvictB g a t k).Nodup :=
    (List.nodup_range g.numTensors).filter _
  have hres1 : ∀ t ∈ (List.range g.numTensors).filter (fun t => startEvictB g a t k),
      resBefore g a k t = true := by
    intro t ht
    rw [List.mem_filter, List.mem_range] at ht
    have hst : storedBefore g a t k = true := by
      have := ht.2
      unfold startEvictB at this
      rw [Bool.and_eq_true, Bool.and_eq_true, Bool.and_eq_true] at this
      exact this.1.1.1
    unfold resBefore
    rw [decide_eq_true ht.1, hst]
    rfl
  rw [validateGo_evicts g B _ _ hnd1 hres1]
  show validateGo g B (fun x => if x ∈ _ then false else resBefore g a k x) _ = _
  rw [resBefore_start g a k, validateGo_append,
    validateGo_execs hg hv hk g.numOps (le_refl _)]
  show validateGo g B (resMid g a k g.numOps) _ = _
  have hnd3 : ((List.range g.numTensors).filter fun t => endEvictB g a t k).Nodup :=
    (List.nodup_range g.numTensors).filter _
  have hres3 : ∀ t ∈ (List.range g.numTensors).filter (fun t => endEvictB g a t k),
      resMid g a k g.numOps t = true := by
    intro t ht
    rw [List.mem_filter, List.mem_range] at ht
    obtain ⟨htm, hev⟩ := ht
    unfold endEvictB at hev
    rw [Bool.and_eq_true, Bool.or_eq_true] at hev
    obtain ⟨hnS, hev⟩ := hev
    rcases hev with hp | hsc
    · unfold resMid
      rw [producedAt_def, hp]
      simp
    · rw [Bool.and_eq_true] at hsc
      obtain ⟨hst, hc⟩ := hsc
      have hse : startEvictB g a t k = false := by
        unfold startEvictB
        rw [hc]
        simp
      unfold resMid
      rw [decide_eq_true htm, hst, hse]
      simp
  rw [validateGo_evicts g B _ _ hnd3 hres3, resMid_end hg hv hk]

/-- Simulating the first `N` builder stages reaches the resident set
stored before stage `N`. -/
theorem validateGo_stagesRun {g : DFG} {B : Nat} {a : Assignment}
    (hg : StructurallyValid g) (hv : Valid g B a) :
    ∀ N, N ≤ g.numStages →
      validateGo g B (resBefore g a 0) ((List.range N).flatMap (stageInstrs g a)) =
        Except.ok (resBefore g a N) := by
  intro N
  induction N with
  | zero => intro _; rfl
  | succ N ih =>
    intro hN
    rw [List.range_succ, List.flatMap_append, validateGo_append,
      ih (Nat.le_of_succ_le hN)]
    show validateGo g B (resBefore g a N) ([N].flatMap (stageInstrs g a)) = _
    rw [List.flatMap_cons, List.flatMap_nil, List.append_nil]
    exact validateGo_stage hg hv (Nat.lt_of_succ_le hN)

/-- The builder's instruction stream for any valid plan passes the
validator. -/
theorem validate_buildInstrs {g : DFG} {B : Nat} {a : Assignment}
    (hg : StructurallyValid g) (hv : Valid g B a) :
    validate g (buildInstrs g a) B = Except.ok () := by
  unfold validate buildInstrs
  have hinit : (fun t => g.isInput t) = resBefore g a 0 := by
    funext t
    unfold resBefore storedBefore
    rw [if_pos rfl]
    cases hin : g.isInput t with
    | false => simp
    | true => rw [decide_eq_true (DFG.isInput_lt hin)]; rfl
  rw [hinit, validateGo_stagesRun hg hv g.numStages (le_refl _)]
  rfl

/-! Helper lemmas about the solver contract and the optimizer pipeline. -/

theorem exactSolver_ok {solver : Solver} {g : DFG} {B : Nat} {a : Assignment}
    (hs : ExactSolverAt solver g B) (hsv : solver g B = Except.ok a) :
    Valid g B a ∧
      ∀ a', Valid g B a' → (evaluate g a).totalCost ≤ (evaluate g a').totalCost := by
  unfold ExactSolverAt at hs
  rw [hsv] at hs
  exact hs

theorem exactSolver_error {solver : Solver} {g : DFG} {B : Nat} {e : SolveError}
    (hs : ExactSolverAt solver g B) (hsv : solver g B = Except.error e) :
    e = SolveError.infeasible ∧ ∀ a, ¬ Valid g B a := by
  unfold ExactSolverAt at hs
  rw [hsv] at hs
  exact hs

theorem optimize_ok {solver : Solver} {g : DFG} {B : Nat} {a : Assignment}
    (hsv : solver g B = Except.ok a) (hv : Valid g B a) :
    optimize solver g B = Except.ok
      ⟨buildInstrs g a, (evaluate g a).peakMemory, (evaluate g a).totalCost,
        recompOps g a⟩ := by
  unfold optimize
  rw [hsv]
  show (match buildSchedule g B a with
    | Except.ok is =>
        Except.ok (⟨is, (evaluate g a).peakMemory, (evaluate g a).totalCost,
          recompOps g a⟩ : OrderedSchedule)
    | Except.error e => Except.error e) = _
  unfold buildSchedule
  rw [if_pos hv]

theorem optimize_infeasible {solver : Solver} {g : DFG} {B : Nat}
    (hsv : solver g B = Except.error SolveError.infeasible) :
    optimize solver g B = Except.error CheckmateError.infeasibleBudget := by
  unfold optimize
  rw [hsv]

/-- Relaxing the budget preserves validity of a plan. -/
theorem valid_mono {g : DFG} {B1 B2 : Nat} {a : Assignment}
    (hv : Valid g B1 a) (hB : B1 ≤ B2) : Valid g B2 a :=
  ⟨hv.1, hv.2.1, hv.2.2.1, fun k hk => le_trans (hv.2.2.2.1 k hk) hB,
    hv.2.2.2.2.1, hv.2.2.2.2.2⟩

/-- A budget below the largest tensor allows no valid plan on a well-formed
graph with at least one operator: the largest tensor is either a graph
input (always resident) or must be produced at some stage, and either way
it is charged to some stage's footprint. -/
theorem no_valid_of_small_budget {g : DFG} {B : Nat}
    (hops : 0 < g.numOps) (hB : B < maxTensorSize g) :
    ∀ a, ¬ Valid g B a := by
  intro a hv
  unfold maxTensorSize at hB
  rw [Finset.lt_sup_iff] at hB
  obtain ⟨t, htm, hsz⟩ := hB
  rw [Finset.mem_range] at htm
  cases hin : g.isInput t with
  | true =>
    have h0 : (0 : Nat) < g.numStages := hops
    have hS0 : a.S t 0 = true := hv.2.2.1 t htm hin 0 h0
    have hmem : inMemAt g a t 0 = true := by
      unfold inMemAt
      rw [hS0]
      simp
    have := le_trans (size_le_memAt htm hmem) (hv.2.2.2.1 0 h0)
    omega
  | false =>
    obtain ⟨k, hk, hp⟩ := hv.2.2.2.2.1 t htm hin
    have hmem : inMemAt g a t k = true := by
      unfold inMemAt
      rw [hp]
      simp
    have := le_trans (size_le_memAt htm hmem) (hv.2.2.2.1 k hk)
    omega

/-- The builder emits an eviction of `t` exactly when some stage drops it
(at the start or at the end). -/
theorem evict_mem_buildInstrs {g : DFG} {a : Assignment} {t : Nat} :
    Instr.evict t ∈ buildInstrs g a ↔
      ∃ k, k < g.numStages ∧ t < g.numTensors ∧
        (startEvictB g a t k = true ∨ endEvictB g a t k = true) := by
  unfold buildInstrs stageInstrs
  simp only [List.mem_flatMap, List.mem_append, List.mem_map, List.mem_filter,
    List.mem_range]
  constructor
  · rintro ⟨k, hk, h⟩
    rcases h with ⟨u, ⟨hu, he⟩, heq⟩ | ⟨i, -, heq⟩ | ⟨u, ⟨hu, he⟩, heq⟩
    · cases heq
      exact ⟨k, hk, hu, Or.inl he⟩
    · cases heq
    · cases heq
      exact ⟨k, hk, hu, Or.inr he⟩
  · rintro ⟨k, hk, htm, h | h⟩
    · exact ⟨k, hk, Or.inl ⟨t, ⟨htm, h⟩, rfl⟩⟩
    · exact ⟨k, hk, Or.inr (Or.inr ⟨t, ⟨htm, h⟩, rfl⟩)⟩

/-- If the builder never evicts `t`, the tensor stays resident from its
first production to the final stage. -/
theorem no_evict_persists {g : DFG} {a : Assignment} {t : Nat}
    (htm : t < g.numTensors) (hne : Instr.evict t ∉ buildInstrs g a) :
    (∀ k, k < g.numStages → producedAt g a t k = true → a.S t k = true) ∧
    (∀ k, k + 1 < g.numStages → a.S t k = true → a.S t (k + 1) = true) := by
  have hno : ∀ k, k < g.numStages →
      startEvictB g a t k = false ∧ endEvictB g a t k = false := by
    intro k hk
    constructor
    · cases hq : startEvictB g a t k with
      | false => rfl
      | true => exact absurd (evict_mem_buildInstrs.mpr ⟨k, hk, htm, Or.inl hq⟩) hne
    · cases hq : endEvictB g a t k with
      | false => rfl
      | true => exact absurd (evict_mem_buildInstrs.mpr ⟨k, hk, htm, Or.inr hq⟩) hne
  constructor
  · intro k hk hp
    have hend := (hno k hk).2
    unfold endEvictB at hend
    rw [hp] at hend
    cases hS : a.S t k with
    | true => rfl
    | false => rw [hS] at hend; simp at hend
  · intro k hk1 hS
    have hstart := (hno (k + 1) hk1).1
    have hend := (hno (k + 1) hk1).2
    unfold startEvictB at hstart
    unfold endEvictB at hend
    have hstored : storedBefore g a t (k + 1) = true := by
      unfold storedBefore
      rw [if_neg (Nat.succ_ne_zero k), Nat.succ_sub_one]
      exact hS
    rw [hstored] at hstart hend
    cases hS1 : a.S t (k + 1) with
    | true => rfl
    | false =>
      rw [hS1] at hstart hend
      cases hc : consumedAt g a t (k + 1) with
      | true => rw [hc] at hend; simp at hend
      | false =>
        cases hp : producedAt g a t (k + 1) with
        | true => rw [hp] at hend; simp at hend
        | false => rw [hc, hp] at hstart; simp at hstart

/-! The ten claims. -/

/-- C1: for every valid DFG, every ordered schedule that the pipeline
builds from a solver-produced decision-matrix pair passes the independent
schedule validator: the re-simulation of the instruction sequence finds
every consumed tensor most recently produced-and-not-yet-evicted and keeps
peak memory within the budget. -/
theorem C1_builder_schedules_validate {solver : Solver} {g : DFG} {B : Nat}
    {sched : OrderedSchedule}
    (hg : StructurallyValid g) (hs : ExactSolverAt solver g B)
    (hok : optimize solver g B = Except.ok sched) :
    validate g sched.instrs B = Except.ok () := by
  cases hsv : solver g B with
  | ok a =>
    have hv : Valid g B a := (exactSolver_ok hs hsv).1
    rw [optimize_ok hsv hv] at hok
    cases hok
    exact validate_buildInstrs hg hv
  | error e =>
    unfold optimize at hok
    rw [hsv] at hok
    cases e <;> cases hok

/-- C2: for every feasible (DFG, budget) pair, the accountant's peak-memory
computation on the decision matrices chosen by the exact solver is at most
the budget. -/
theorem C2_peak_within_budget {solver : Solver} {g : DFG} {B : Nat}
    (hs : ExactSolverAt solver g B) (hf : Feasible g B) :
    ∃ a, solver g B = Except.ok a ∧ (evaluate g a).peakMemory ≤ B := by
  cases hsv : solver g B with
  | ok a =>
    have h := exactSolver_ok hs hsv
    exact ⟨a, rfl, peakMem_le h.1.2.2.2.1⟩
  | error e =>
    obtain ⟨-, hnone⟩ := exactSolver_error hs hsv
    obtain ⟨a, ha⟩ := hf
    exact absurd ha (hnone a)

/-- C3: `build` fails with `MalformedGraphError` exactly when the supplied
description violates the structural invariants (undefined tensor
references, forward references or cycles, missing outputs, or a wrong
producer count), and otherwise returns the DFG unchanged. -/
theorem C3_build_malformed_iff (os : List Operator) (ts : List Tensor) :
    (build os ts = Except.error CheckmateError.malformedGraph ↔
      ¬ StructurallyValid ⟨os, ts⟩) ∧
    (build os ts = Except.ok ⟨os, ts⟩ ↔ StructurallyValid ⟨os, ts⟩) := by
  unfold build
  by_cases h : (⟨os, ts⟩ : DFG).wellFormedB = true
  · rw [if_pos h]
    have hsv := (wellFormedB_iff _).mp h
    constructor
    · constructor
      · intro hc
        cases hc
      · intro hns
        exact absurd hsv hns
    · exact ⟨fun _ => hsv, fun _ => rfl⟩
  · rw [if_neg h]
    have hns : ¬ StructurallyValid ⟨os, ts⟩ := fun hs => h ((wellFormedB_iff _).mpr hs)
    constructor
    · exact ⟨fun _ => hns, fun _ => rfl⟩
    · constructor
      · intro hc
        cases hc
      · intro hsv
        exact absurd hsv hns

/-- C4 (amended): for every DFG with at least one operator, a budget
smaller than the largest single tensor's size makes the exact optimizer
fail with `InfeasibleBudgetError`.  (The original claim quantified over
every DFG; it fails for the degenerate operator-free graph, on which
nothing needs to be scheduled — see the counterexample.) -/
theorem C4_small_budget_infeasible {solver : Solver} {g : DFG} {B : Nat}
    (hops : 0 < g.numOps) (hB : B < maxTensorSize g)
    (hs : ExactSolverAt solver g B) :
    optimize solver g B = Except.error CheckmateError.infeasibleBudget := by
  cases hsv : solver g B with
  | ok a =>
    exact absurd (exactSolver_ok hs hsv).1 (no_valid_of_small_budget hops hB a)
  | error e =>
    have he := (exactSolver_error hs hsv).1
    rw [he] at hsv
    exact optimize_infeasible hsv

/-- C5 (amended): on a well-formed DFG with positive operator costs, a
budget at least the sum of all tensor sizes makes the exact solver return
a plan with zero recomputation: every operator executes exactly once, no
operator is recomputed, and the total cost is the original
single-execution cost.  (The original claim further required that every
tensor stays resident and no eviction occurs; an exact solver may return
an optimal plan that evicts a dead tensor, since eviction costs nothing —
see the counterexample.) -/
theorem C5_large_budget_no_recompute {solver : Solver} {g : DFG} {B : Nat}
    (hg : StructurallyValid g) (hcost : ∀ i < g.numOps, 0 < (g.op i).cost)
    (hB : sumSizes g ≤ B) (hs : ExactSolverAt solver g B) :
    ∃ a, solver g B = Except.ok a ∧ (∀ i < g.numOps, execCount g a i = 1) ∧
      (evaluate g a).totalCost = originalCost g ∧ recompOps g a = 0 := by
  have hka : Valid g B (keepAll g) := keepAll_valid hg hB
  cases hsv : solver g B with
  | error e => exact absurd hka ((exactSolver_error hs hsv).2 _)
  | ok a =>
    obtain ⟨hv, hopt⟩ := exactSolver_ok hs hsv
    have hle : runCost g a ≤ originalCost g := by
      have h := hopt (keepAll g) hka
      rw [show (evaluate g (keepAll g)).totalCost = runCost g (keepAll g) from rfl,
        keepAll_cost] at h
      exact h
    have heq : runCost g a = originalCost g :=
      le_antisymm hle (originalCost_le_runCost hg hv)
    have hexec : ∀ i ∈ Finset.range g.numOps,
        (g.op i).cost = (g.op i).cost * execCount g a i := by
      have hsum : ∑ i ∈ Finset.range g.numOps, (g.op i).cost
          = ∑ i ∈ Finset.range g.numOps, (g.op i).cost * execCount g a i := by
        calc ∑ i ∈ Finset.range g.numOps, (g.op i).cost
            = originalCost g := rfl
        _ = runCost g a := heq.symm
        _ = _ := runCost_eq_execCount g a
      exact fun i hi =>
        (Finset.sum_eq_sum_iff_of_le fun j hj =>
          Nat.le_mul_of_pos_right _
            (one_le_execCount hg hv (Finset.mem_range.mp hj))).mp hsum i hi
    have h1 : ∀ i < g.numOps, execCount g a i = 1 := by
      intro i hi
      have h := hexec i (Finset.mem_range.mpr hi)
      have hmul : (g.op i).cost * 1 = (g.op i).cost * execCount g a i := by
        rw [Nat.mul_one]
        exact h
      exact (Nat.eq_of_mul_eq_mul_left (hcost i hi) hmul).symm
    refine ⟨a, rfl, h1, heq, ?_⟩
    unfold recompOps
    rw [Finset.card_eq_zero, Finset.filter_eq_empty_iff]
    intro i hi
    rw [h1 i (Finset.mem_range.mp hi)]
    omega

/-- C6: for a fixed DFG and budgets B1 ≤ B2, if exact solving succeeds at
B1 then it succeeds at B2 with a total cost no larger: relaxing the budget
constraint never worsens the optimum. -/
theorem C6_budget_monotone {s1 s2 : Solver} {g : DFG} {B1 B2 : Nat}
    {a1 : Assignment}
    (hs1 : ExactSolverAt s1 g B1) (hs2 : ExactSolverAt s2 g B2)
    (hB : B1 ≤ B2) (hok1 : s1 g B1 = Except.ok a1) :
    ∃ a2, s2 g B2 = Except.ok a2 ∧
      (evaluate g a2).totalCost ≤ (evaluate g a1).totalCost := by
  have hv2 : Valid g B2 a1 := valid_mono (exactSolver_ok hs1 hok1).1 hB
  cases hsv : s2 g B2 with
  | error e => exact absurd hv2 ((exactSolver_error hs2 hsv).2 a1)
  | ok a2 => exact ⟨a2, rfl, (exactSolver_ok hs2 hsv).2 a1 hv2⟩

/-- C7: solving is deterministic at the observable level: any two
exact-mode solver runs on the identical (DFG, budget) instance agree — two
returned plans have identical total cost, and an infeasibility report on
one run forces the same report on the other. -/
theorem C7_deterministic_cost {s1 s2 : Solver} {g : DFG} {B : Nat}
    (hs1 : ExactSolverAt s1 g B) (hs2 : ExactSolverAt s2 g B) :
    (∀ a1 a2, s1 g B = Except.ok a1 → s2 g B = Except.ok a2 →
      (evaluate g a1).totalCost = (evaluate g a2).totalCost) ∧
    (∀ e, s1 g B = Except.error e →
      s2 g B = Except.error SolveError.infeasible) := by
  constructor
  · intro a1 a2 h1 h2
    have o1 := exactSolver_ok hs1 h1
    have o2 := exactSolver_ok hs2 h2
    exact le_antisymm (o1.2 a2 o2.1) (o2.2 a1 o1.1)
  · intro e h1
    obtain ⟨-, hnone⟩ := exactSolver_error hs1 h1
    cases hsv : s2 g B with
    | ok a2 => exact absurd (exactSolver_ok hs2 hsv).1 (hnone a2)
    | error e2 => rw [(exactSolver_error hs2 hsv).1]

/-- C8: every valid plan satisfies the availability invariant: whenever an
operator runs at a stage, each of its input tensors is resident at the
immediately preceding stage (graph inputs are preloaded before stage 0) or
is produced at that same stage by an operator other than the consumer;
moreover on a well-formed graph an operator never produces its own input,
so it can never consume its own not-yet-computed output. -/
theorem C8_availability {g : DFG} {B : Nat} {a : Assignment}
    (hg : StructurallyValid g) (hv : Valid g B a) :
    (∀ i < g.numOps, ∀ k < g.numStages, a.R i k = true →
      ∀ t ∈ (g.op i).inputs,
        storedBefore g a t k = true ∨
          ∃ j, j ≠ i ∧ a.R j k = true ∧ g.produces j t = true) ∧
    (∀ i < g.numOps, ∀ t ∈ (g.op i).inputs, g.produces i t = false) := by
  constructor
  · intro i hi k hk hR t ht
    have h := hv.1 i hi k hk hR
    unfold availB at h
    rw [List.all_eq_true] at h
    have h := h t ht
    rw [Bool.or_eq_true] at h
    rcases h with h | h
    · exact Or.inl h
    · rw [List.any_eq_true] at h
      obtain ⟨j, -, hj⟩ := h
      rw [Bool.and_eq_true, Bool.and_eq_true] at hj
      obtain ⟨⟨hne, hRj⟩, hpj⟩ := hj
      refine Or.inr ⟨j, ?_, hRj, hpj⟩
      simpa using hne
  · intro i hi t ht
    cases hq : g.produces i t with
    | false => rfl
    | true =>
      rcases (hg.1 i hi).2.2.2 t ht with hin | ⟨j, hj, hpj⟩
      · rw [produces_isInput_false hg hq] at hin
        cases hin
      · have := produces_unique hg hq hpj
        omega

/-- C9: the accountant's total cost is operator cost summed over every
(operator, stage) pair where `R` is true — an operator recomputed N times
contributes N times its cost — and `evaluate` is pure: its two call sites
(constraint generation and post-hoc validation) agree bit-for-bit on equal
(R, S) inputs. -/
theorem C9_accountant_cost_and_purity (g : DFG) (a a' : Assignment)
    (hR : a.R = a'.R) (hS : a.S = a'.S) :
    (evaluate g a).totalCost =
      ∑ i ∈ Finset.range g.numOps, (g.op i).cost * execCount g a i ∧
    evaluate g a = evaluate g a' := by
  refine ⟨runCost_eq_execCount g a, ?_⟩
  have haa : a = a' := by
    cases a
    cases a'
    cases hR
    cases hS
    rfl
  rw [haa]

/-! Concrete instances used to exercise the theorems: a one-operator
graph, the degenerate operator-free graph, a two-operator chain, and the
four-operator linear chain of the spec's section 8 scenario. -/

/-- One operator producing one 5-byte tensor at cost 1. -/
def w1g : DFG := ⟨[⟨"a", [], [0], 1⟩], [⟨5, false⟩]⟩

/-- A solver returning the checkpoint-everything plan for `w1g`. -/
def w1solver : Solver := fun _ _ => Except.ok (keepAll w1g)

theorem w1g_wf : StructurallyValid w1g := (wellFormedB_iff w1g).mp (by decide)

theorem w1_exact5 : ExactSolverAt w1solver w1g 5 :=
  exactSolverAt_const w1g_wf (keepAll_valid w1g_wf (by decide)) (keepAll_cost w1g)

theorem w1_exact6 : ExactSolverAt w1solver w1g 6 :=
  exactSolverAt_const w1g_wf (keepAll_valid w1g_wf (by decide)) (keepAll_cost w1g)

/-- A solver that reports infeasibility. -/
def infSolver : Solver := fun _ _ => Except.error SolveError.infeasible

theorem infSolver_exact_w1 : ExactSolverAt infSolver w1g 4 :=
  ⟨rfl, no_valid_of_small_budget (by decide) (by decide)⟩

/-- The degenerate operator-free graph with a single 10-byte input tensor. -/
def c4g : DFG := ⟨[], [⟨10, true⟩]⟩

def c4a : Assignment := ⟨fun _ _ => false, fun _ _ => false⟩

def c4solver : Solver := fun _ _ => Except.ok c4a

/-- Two-operator chain producing two 5-byte tensors at cost 1 each. -/
def c5g : DFG := ⟨[⟨"p", [], [0], 1⟩, ⟨"q", [0], [1], 1⟩], [⟨5, false⟩, ⟨5, false⟩]⟩

/-- An optimal plan for `c5g` that drops tensor 0 after its last use. -/
def c5a : Assignment :=
  ⟨fun i k => decide (i = k), fun t k => decide ((t = 0 ∧ k = 0) ∨ (t = 1 ∧ k = 1))⟩

def c5solver : Solver := fun _ _ => Except.ok c5a

theorem c5g_wf : StructurallyValid c5g := (wellFormedB_iff c5g).mp (by decide)

theorem c5_exact : ExactSolverAt c5solver c5g 10 :=
  exactSolverAt_const c5g_wf (by decide) (by decide)

/-- The section 8 scenario: the 4-operator linear chain A→B→C→D with tensor
sizes [10, 10, 10, 10] and unit operator costs. -/
def c10g : DFG :=
  ⟨[⟨"a", [], [0], 1⟩, ⟨"b", [0], [1], 1⟩, ⟨"c", [1], [2], 1⟩, ⟨"d", [2], [3], 1⟩],
   [⟨10, false⟩, ⟨10, false⟩, ⟨10, false⟩, ⟨10, false⟩]⟩

/-- The last-use-eviction plan for the chain: run operator `k` at stage `k`
and keep only the tensor needed next; peak memory 20, no recomputation. -/
def c10a : Assignment := ⟨fun i k => decide (i = k), fun t k => decide (t = k)⟩

def c10solver : Solver := fun _ _ => Except.ok c10a

theorem c10g_wf : StructurallyValid c10g := (wellFormedB_iff c10g).mp (by decide)

theorem c10a_valid : Valid c10g 25 c10a := by decide

theorem c10_exact : ExactSolverAt c10solver c10g 25 :=
  exactSolverAt_const c10g_wf c10a_valid (by decide)

/-- Residency propagates forward along stages under the no-eviction
step property. -/
theorem S_persists_from {g : DFG} {a : Assignment} {t : Nat}
    (hpersist : ∀ k, k + 1 < g.numStages → a.S t k = true → a.S t (k + 1) = true)
    {k : Nat} :
    ∀ j, k ≤ j → j < g.numStages → a.S t k = true → a.S t j = true := by
  intro j
  induction j with
  | zero =>
    intro hkj _ hSk
    have hk0 : k = 0 := Nat.le_zero.mp hkj
    rwa [← hk0]
  | succ j ih =>
    intro hkj hj hSk
    rcases Nat.eq_or_lt_of_le hkj with heq | hlt
    · rwa [← heq]
    · exact hpersist j hj (ih (Nat.lt_succ_iff.mp hlt) (by omega) hSk)

/-- C10 (amended): on the 4-operator chain with sizes [10,10,10,10], unit
costs and budget 25, the exact optimizer produces a schedule that evicts
tensor A or tensor B, whose validated peak memory is at most 25, and whose
total cost equals the original cost — zero recomputation, since evicting
each tensor after its last use already achieves peak 20.  (The original
claim demanded one recomputation of the evicted operator and total cost
original + 1; no optimal schedule does that — see the counterexample.) -/
theorem C10_chain_schedule {solver : Solver}
    (hs : ExactSolverAt solver c10g 25) :
    ∃ sched, optimize solver c10g 25 = Except.ok sched ∧
      sched.totalCost = originalCost c10g ∧
      sched.peakMemory ≤ 25 ∧
      validate c10g sched.instrs 25 = Except.ok () ∧
      (Instr.evict 0 ∈ sched.instrs ∨ Instr.evict 1 ∈ sched.instrs) := by
  cases hsv : solver c10g 25 with
  | error e => exact absurd c10a_valid ((exactSolver_error hs hsv).2 _)
  | ok a =>
    obtain ⟨hv, hopt⟩ := exactSolver_ok hs hsv
    refine ⟨_, optimize_ok hsv hv, ?_, ?_, ?_, ?_⟩
    · show (evaluate c10g a).totalCost = originalCost c10g
      have hle : runCost c10g a ≤ runCost c10g c10a := hopt c10a c10a_valid
      have hca : runCost c10g c10a = originalCost c10g := by decide
      have hge := originalCost_le_runCost c10g_wf hv
      show runCost c10g a = originalCost c10g
      omega
    · exact peakMem_le hv.2.2.2.1
    · exact validate_buildInstrs c10g_wf hv
    · show Instr.evict 0 ∈ buildInstrs c10g a ∨ Instr.evict 1 ∈ buildInstrs c10g a
      by_contra hno
      push_neg at hno
      obtain ⟨h0, h1⟩ := hno
      have hS3 : ∀ t, t = 0 ∨ t = 1 → a.S t 3 = true := by
        intro t htt
        have htm : t < c10g.numTensors := by rcases htt with rfl | rfl <;> decide
        have hni : c10g.isInput t = false := by rcases htt with rfl | rfl <;> decide
        have hne : Instr.evict t ∉ buildInstrs c10g a := by
          rcases htt with rfl | rfl
          · exact h0
          · exact h1
        obtain ⟨hprodS, hpersist⟩ := no_evict_persists htm hne
        obtain ⟨k, hk, hp⟩ := hv.2.2.2.2.1 t htm hni
        have hT4 : c10g.numStages = 4 := rfl
        exact S_persists_from hpersist 3 (by omega) (by decide) (hprodS k hk hp)
      have hT : (0 : Nat) < c10g.numStages := by decide
      have h3 : a.S 3 3 = true ∨ producedAt c10g a 3 3 = true :=
        hv.2.2.2.2.2 hT 3 (by decide) (by decide)
      have hmem0 : inMemAt c10g a 0 3 = true := by
        unfold inMemAt
        rw [hS3 0 (Or.inl rfl)]
        simp
      have hmem1 : inMemAt c10g a 1 3 = true := by
        unfold inMemAt
        rw [hS3 1 (Or.inr rfl)]
        simp
      have hmem3 : inMemAt c10g a 3 3 = true := by
        unfold inMemAt
        rcases h3 with h | h
        · rw [h]
          simp
        · rw [h]
          simp
      have hbudget := hv.2.2.2.1 3 (by decide)
      have hge30 : (30 : Nat) ≤ memAt c10g a 3 := by
        unfold memAt
        show (30 : Nat) ≤ ∑ t ∈ Finset.range 4,
          if inMemAt c10g a t 3 = true then c10g.size t else 0
        rw [Finset.sum_range_succ, Finset.sum_range_succ, Finset.sum_range_succ,
          Finset.sum_range_succ, Finset.sum_range_zero, if_pos hmem0, if_pos hmem1,
          if_pos hmem3]
        have hs0 : c10g.size 0 = 10 := rfl
        have hs1 : c10g.size 1 = 10 := rfl
        have hs3 : c10g.size 3 = 10 := rfl
        rw [hs0, hs1, hs3]
        omega
      omega

theorem c4_exact : ExactSolverAt c4solver c4g 5 :=
  ⟨by decide, fun _ _ => Nat.zero_le _⟩

/-- C4 counterexample: the operator-free graph with a single 10-byte input
tensor is accepted by `build`, its largest tensor exceeds the budget 5,
yet the exact optimizer succeeds with the empty schedule instead of
failing with `InfeasibleBudgetError` — nothing needs to be scheduled, so
the claim's universal quantification over every DFG fails here. -/
theorem C4_counterexample :
    build [] [⟨10, true⟩] = Except.ok c4g ∧
    5 < maxTensorSize c4g ∧
    ExactSolverAt c4solver c4g 5 ∧
    optimize c4solver c4g 5 = Except.ok ⟨[], 0, 0, 0⟩ :=
  ⟨rfl, by decide, c4_exact, rfl⟩

/-- C5 counterexample: on the two-operator chain with budget equal to the
sum of all tensor sizes, the exact-solver contract is satisfied by a
solver returning an optimal plan that drops tensor 0 after its last use,
so the produced schedule contains an eviction — refuting the claim's
"every tensor is kept resident, and no eviction occurs". -/
theorem C5_counterexample :
    ExactSolverAt c5solver c5g 10 ∧ sumSizes c5g ≤ 10 ∧
    optimize c5solver c5g 10 = Except.ok
      ⟨[Instr.exec 0, Instr.exec 1, Instr.evict 0], 10, 2, 0⟩ ∧
    Instr.evict 0 ∈ [Instr.exec 0, Instr.exec 1, Instr.evict 0] :=
  ⟨c5_exact, by decide, rfl, by decide⟩

/-- C10 counterexample: on the 4-operator chain with budget 25, the
optimizer's schedule has total cost 4 — equal to the original cost, with
zero recomputed operators — not original cost plus one recomputation (5)
as the claim demands: evicting each tensor after its last use keeps peak
memory at 20 without any rematerialization. -/
theorem C10_counterexample :
    ExactSolverAt c10solver c10g 25 ∧
    originalCost c10g = 4 ∧
    optimize c10solver c10g 25 = Except.ok
      ⟨[Instr.exec 0, Instr.exec 1, Instr.evict 0, Instr.exec 2, Instr.evict 1,
        Instr.exec 3, Instr.evict 2], 20, 4, 0⟩ ∧
    recompOps c10g c10a = 0 ∧
    ¬ (4 : Nat) = originalCost c10g + 1 :=
  ⟨c10_exact, by decide, rfl, by decide, by decide⟩

/-! Witnesses instantiating each hypothesis-carrying claim theorem at a
concrete input. -/

theorem w1_optimize : optimize w1solver w1g 5 =
    Except.ok ⟨[Instr.exec 0], 5, 1, 0⟩ := rfl

theorem C1_witness : validate w1g [Instr.exec 0] 5 = Except.ok () :=
  @C1_builder_schedules_validate w1solver w1g 5 ⟨[Instr.exec 0], 5, 1, 0⟩
    w1g_wf w1_exact5 w1_optimize

theorem C2_witness :
    ∃ a, w1solver w1g 5 = Except.ok a ∧ (evaluate w1g a).peakMemory ≤ 5 :=
  C2_peak_within_budget w1_exact5 ⟨keepAll w1g, keepAll_valid w1g_wf (by decide)⟩

theorem C4_witness :
    optimize infSolver w1g 4 = Except.error CheckmateError.infeasibleBudget :=
  C4_small_budget_infeasible (by decide) (by decide) infSolver_exact_w1

theorem C5_witness :
    ∃ a, w1solver w1g 5 = Except.ok a ∧
      (∀ i < w1g.numOps, execCount w1g a i = 1) ∧
      (evaluate w1g a).totalCost = originalCost w1g ∧ recompOps w1g a = 0 :=
  @C5_large_budget_no_recompute w1solver w1g 5 w1g_wf (by decide) (by decide) w1_exact5

theorem C6_witness :
    ∃ a2, w1solver w1g 6 = Except.ok a2 ∧
      (evaluate w1g a2).totalCost ≤ (evaluate w1g (keepAll w1g)).totalCost :=
  @C6_budget_monotone w1solver w1solver w1g 5 6 (keepAll w1g)
    w1_exact5 w1_exact6 (by decide) rfl

theorem C7_witness :
    (∀ a1 a2, w1solver w1g 5 = Except.ok a1 → w1solver w1g 5 = Except.ok a2 →
      (evaluate w1g a1).totalCost = (evaluate w1g a2).totalCost) ∧
    (∀ e, w1solver w1g 5 = Except.error e →
      w1solver w1g 5 = Except.error SolveError.infeasible) :=
  C7_deterministic_cost w1_exact5 w1_exact5

theorem C8_witness :
    (∀ i < w1g.numOps, ∀ k < w1g.numStages, (keepAll w1g).R i k = true →
      ∀ t ∈ (w1g.op i).inputs,
        storedBefore w1g (keepAll w1g) t k = true ∨
          ∃ j, j ≠ i ∧ (keepAll w1g).R j k = true ∧ w1g.produces j t = true) ∧
    (∀ i < w1g.numOps, ∀ t ∈ (w1g.op i).inputs, w1g.produces i t = false) :=
  @C8_availability w1g 5 (keepAll w1g) w1g_wf (keepAll_valid w1g_wf (by decide))

theorem C9_witness :
    (evaluate c5g c5a).totalCost =
      ∑ i ∈ Finset.range c5g.numOps, (c5g.op i).cost * execCount c5g c5a i ∧
    evaluate c5g c5a = evaluate c5g c5a :=
  C9_accountant_cost_and_purity c5g c5a c5a rfl rfl

theorem C10_witness :
    ∃ sched, optimize c10solver c10g 25 = Except.ok sched ∧
      sched.totalCost = originalCost c10g ∧
      sched.peakMemory ≤ 25 ∧
      validate c10g sched.instrs 25 = Except.ok () ∧
      (Instr.evict 0 ∈ sched.instrs ∨ Instr.evict 1 ∈ sched.instrs) :=
  C10_chain_schedule c10_exact

end Checkmate
